import Mathlib

/-!
Verification development for the bible-study-platform repository's
real-time presence & text-anchored annotation subsystem.

The embedding models:
* the Text Anchor Engine of `src/unnamed/part_010`
  (`handleMouseUp`/`handleAddComment` as `createAnchor`,
  `calculatePositionForTextAnchor` as the two-tier resolver);
* the Annotation Grouping Layer of `src/unnamed/part_007` and
  `src/unnamed/part_010` (`commentGroups`, `uniqueUsers`, group preview);
* the Credential Manager of `src/backend/src/middleware/auth.ts`
  (`generateTokens`, `refreshTokens`);
* the socket server handlers of the same file
  (`join-study`, `leave-study`, `add-comment`, `disconnect`).

Document text is modelled as the flattened `textContent` of the rendered
markdown container, i.e. a `List Char`; rendering positions are abstracted
to character offsets into that flattened text (the DOM rectangle a range
maps to is a bijective function of the offset for a fixed rendering, so the
offset is the faithful transport-agnostic abstraction the spec itself uses).
JavaScript strings are modelled as `List Char`, `String.prototype.slice`
with its clamping semantics as `strSlice`, `trim` as `trim`, and
`indexOf` as `indexOfSub`.
-/

namespace BibleStudy

/-! ## Text Anchor Engine (src/unnamed/part_010) -/

/-- JavaScript whitespace as relevant to `String.prototype.trim` for the
characters that can occur in the flattened study text. -/
def isWs (c : Char) : Bool :=
  c == ' ' || c == '\t' || c == '\n' || c == '\r'

/-- `s.slice(a, b)` on a JavaScript string (non-negative arguments):
clamps `b` to the length and returns `[]` when `a ≥ b`. -/
def strSlice (s : List Char) (a b : Nat) : List Char :=
  (s.take b).drop a

/-- Leading-whitespace removal, the left half of `String.prototype.trim`. -/
def ltrim (l : List Char) : List Char := l.dropWhile isWs

/-- Trailing-whitespace removal, the right half of `String.prototype.trim`. -/
def rtrim : List Char → List Char
  | [] => []
  | c :: cs =>
    match rtrim cs with
    | [] => if isWs c then [] else [c]
    | r => c :: r

/-- `String.prototype.trim`: drop leading and trailing whitespace. -/
def trim (l : List Char) : List Char := rtrim (ltrim l)

/-- The `textAnchor` payload built in `handleAddComment`
(src/unnamed/part_010 lines 246-251). -/
structure TextAnchor where
  selectedText : List Char
  startOffset : Nat
  endOffset : Nat
  context : List Char
deriving DecidableEq, Repr

/-- Anchor creation, combining `handleMouseUp` (which rejects collapsed or
whitespace-only selections and stores the **trimmed** selection string,
src/unnamed/part_010 lines 203-224) and `handleAddComment` (which computes
`startOffset` as the length of the flattened text before the **raw**
selection start, `endOffset = startOffset + selectedText.length`, and a
50-character symmetric context window, lines 227-261). The raw selection
is the span `[s, e)` of the flattened document text. -/
def createAnchor (doc : List Char) (s e : Nat) : Option TextAnchor :=
  let raw := strSlice doc s e
  let sel := trim raw
  if sel = [] then none
  else
    let startOffset := s
    let endOffset := s + sel.length
    let context := strSlice doc (startOffset - 50) (min doc.length (endOffset + 50))
    some ⟨sel, startOffset, endOffset, context⟩

/-- Whether `pat` is a prefix of `l` (character-wise), as used by
`String.prototype.indexOf`'s match test. -/
def prefixAt : List Char → List Char → Bool
  | [], _ => true
  | _ :: _, [] => false
  | p :: ps, c :: cs => p == c && prefixAt ps cs

/-- `l.indexOf(pat)` on JavaScript strings: index of the first occurrence
of `pat` in `l`, `none` when absent (`some 0` for the empty pattern). -/
def indexOfSub (pat : List Char) : List Char → Option Nat
  | [] => if prefixAt pat [] then some 0 else none
  | c :: t =>
    if prefixAt pat (c :: t) then some 0
    else (indexOfSub pat t).map (· + 1)

/-- Tier 1 of `calculatePositionForTextAnchor`
(src/unnamed/part_010 lines 119-163): the exact-offset check
`fullText.slice(startOffset, endOffset) === selectedText` followed by the
tree walk locating the text node covering `endOffset` (which exists exactly
when `endOffset ≤ fullText.length`); the returned rendering position is the
one of the range collapsed at character offset `endOffset`. -/
def exactTierPos (doc : List Char) (a : TextAnchor) : Option Nat :=
  if strSlice doc a.startOffset a.endOffset = a.selectedText ∧ a.endOffset ≤ doc.length
  then some a.endOffset
  else none

/-- Tier 2 of `calculatePositionForTextAnchor`
(src/unnamed/part_010 lines 165-197): scan for the first occurrence of
`selectedText` in the flattened text, position of the occurrence's end. -/
def fallbackPos (doc : List Char) (a : TextAnchor) : Option Nat :=
  match indexOfSub a.selectedText doc with
  | some i => some (i + a.selectedText.length)
  | none => none

/-- `calculatePositionForTextAnchor` (src/unnamed/part_010 lines 108-200):
exact-offset tier first, substring-search fallback when it fails,
`null` (here `none`) when both fail. -/
def calculatePositionForTextAnchor (doc : List Char) (a : TextAnchor) : Option Nat :=
  match exactTierPos doc a with
  | some p => some p
  | none => fallbackPos doc a

example : createAnchor ['a','b',' ','c','d'] 2 5 =
    some ⟨['c','d'], 2, 4, ['a','b',' ','c','d']⟩ := by decide

example : exactTierPos ['a','b',' ','c','d'] ⟨['c','d'], 2, 4, []⟩ = none := by decide

example : calculatePositionForTextAnchor ['a','b',' ','c','d'] ⟨['c','d'], 2, 4, []⟩ =
    some 5 := by decide

example : createAnchor ['a','b',' ','c','d'] 0 2 = some ⟨['a','b'], 0, 2, ['a','b',' ','c','d']⟩ := by
  decide

/-! ## Annotation Grouping Layer (src/unnamed/part_007, src/unnamed/part_010) -/

/-- A comment author as selected by the backend routes
(`id`, `username`, names; src/backend/src/middleware/auth.ts lines 322-330). -/
structure Author where
  id : String
  username : String
deriving DecidableEq, Repr

/-- The JSON `position` field of a persisted comment: the grouping code in
both src/unnamed/part_007 (lines 386-394) and src/unnamed/part_010
(lines 64-73) requires `position.type === 'textAnchor'` and reads the
anchor fields out of it. -/
structure AnchorPosition where
  ptype : String
  selectedText : List Char
  startOffset : Nat
  endOffset : Nat
deriving DecidableEq, Repr

/-- A comment as consumed by the grouping layer. `createdAt` is a
millisecond timestamp (ISO string order and numeric order coincide). -/
structure Comment where
  id : String
  content : String
  author : Author
  createdAt : Nat
  position : Option AnchorPosition
deriving DecidableEq, Repr

/-- The grouping key `` `${startOffset}-${endOffset}` `` of
src/unnamed/part_007 line 388 and src/unnamed/part_010 line 73. -/
def anchorKey (p : AnchorPosition) : String :=
  toString p.startOffset ++ "-" ++ toString p.endOffset

/-- The key a comment is grouped under, `none` when the comment lacks a
text anchor (`position` absent or `position.type !== 'textAnchor'`). -/
def commentKey (c : Comment) : Option String :=
  match c.position with
  | some p => if p.ptype == "textAnchor" then some (anchorKey p) else none
  | none => none

/-- Appending a comment to its key's group in an insertion-ordered map,
matching the JavaScript `Map` semantics of
`commentGroups.get(key)!.push(comment)` / `commentGroups.set(key, [...])`. -/
def addToGroups (gs : List (String × List Comment)) (k : String) (c : Comment) :
    List (String × List Comment) :=
  match gs with
  | [] => [(k, [c])]
  | (k', l) :: rest =>
    if k' = k then (k', l ++ [c]) :: rest else (k', l) :: addToGroups rest k c

/-- The fold body of the grouping loop: anchored comments are pushed onto
their key's group, comments lacking a text anchor are skipped. -/
def groupStep (gs : List (String × List Comment)) (c : Comment) :
    List (String × List Comment) :=
  match commentKey c with
  | some k => addToGroups gs k c
  | none => gs

/-- `groupByAnchor`: the insertion-ordered `Map<string, Comment[]>` built by
the grouping loops of src/unnamed/part_007 lines 385-394 and
src/unnamed/part_010 lines 61-88, as an association list in key-insertion
order with each group in comment-insertion order. -/
def commentGroups (cs : List Comment) : List (String × List Comment) :=
  cs.foldl groupStep []

/-- One step of `new Map(comments.map(c => [c.author.id, c.author]))`:
inserting under an existing key overwrites the value in place, a fresh key
is appended. -/
def insertKeyed (m : List (String × Author)) (k : String) (v : Author) :
    List (String × Author) :=
  match m with
  | [] => [(k, v)]
  | (k', v') :: rest =>
    if k' = k then (k', v) :: rest else (k', v') :: insertKeyed rest k v

/-- `Array.from(new Map(comments.map(c => [c.author.id, c.author])).values())`
(src/unnamed/part_007 lines 398-400, src/unnamed/part_010 lines 279-281):
the distinct participants of a marker, keyed by author id. -/
def uniqueUsers (l : List Comment) : List Author :=
  (l.foldl (fun m c => insertKeyed m c.author.id c.author) []).map Prod.snd

/-- The group preview comment: src/unnamed/part_007 lines 438 and 451 use
`groupComments[groupComments.length - 1]`, the last comment of the group in
grouping order, as the "Latest" date and the preview content. -/
def previewComment (l : List Comment) : Option Comment := l.getLast?

/-- The backend feed for the grouping view: `GET /week/:weekId`
(src/unnamed/part_002 lines 159-188) returns top-level comments ordered by
`createdAt: 'desc'`, newest first. -/
def sortedNewestFirst (cs : List Comment) : Prop :=
  cs.Chain' (fun a b => b.createdAt ≤ a.createdAt)

/-! ## Credential Manager (src/backend/src/middleware/auth.ts lines 24-89) -/

/-- The `type` discriminator embedded in every JWT payload. -/
inductive TokenType where
  | access
  | refresh
deriving DecidableEq, Repr

/-- The signing secret, `JWT_ACCESS_SECRET` or `JWT_REFRESH_SECRET`
(distinct environment values). -/
inductive SecretKey where
  | accessSecret
  | refreshSecret
deriving DecidableEq, Repr

/-- The claims `{ userId, sessionId, type }` signed into every token. -/
structure JWTPayload where
  userId : String
  sessionId : String
  ttype : TokenType
deriving DecidableEq, Repr

/-- A signed token: payload, the secret it was signed with, and the
absolute expiry instant (milliseconds). -/
structure SignedToken where
  payload : JWTPayload
  key : SecretKey
  expiresAtMs : Nat
deriving DecidableEq, Repr

/-- `jwt.verify(token, secret)`: succeeds with the decoded payload exactly
when the signature matches `secret` and the token has not expired; any
failure throws, modelled as `none`. -/
def jwtVerify (tok : SignedToken) (key : SecretKey) (nowMs : Nat) : Option JWTPayload :=
  if tok.key = key ∧ nowMs < tok.expiresAtMs then some tok.payload else none

def fourHoursMs : Nat := 4 * 60 * 60 * 1000

def thirtyDaysMs : Nat := 30 * 24 * 60 * 60 * 1000

/-- `generateTokens` (auth.ts lines 24-38): a 4-hour access token signed
with the access secret and a 30-day refresh token signed with the refresh
secret, both embedding the same `userId`/`sessionId`. -/
def generateTokens (userId sessionId : String) (nowMs : Nat) :
    SignedToken × SignedToken :=
  (⟨⟨userId, sessionId, .access⟩, .accessSecret, nowMs + fourHoursMs⟩,
   ⟨⟨userId, sessionId, .refresh⟩, .refreshSecret, nowMs + thirtyDaysMs⟩)

/-- A row of the `user_sessions` table. -/
structure UserSession where
  id : String
  userId : String
  expiresAt : Nat
deriving DecidableEq, Repr

/-- The slice of the database `refreshTokens` consults: the session store
and the user table (user ids). -/
structure Db where
  sessions : List UserSession
  users : List String
deriving DecidableEq, Repr

/-- `prisma.userSession.findUnique({ where: { id } })`. -/
def findSession (db : Db) (id : String) : Option UserSession :=
  db.sessions.find? (fun s => s.id = id)

/-- `prisma.user.findUnique({ where: { id } })`, reduced to the id. -/
def findUser (db : Db) (uid : String) : Option String :=
  db.users.find? (fun u => u = uid)

/-- `refreshTokens` (auth.ts lines 66-89): verify the presented token with
the **refresh** secret (the embedded `type` field is never consulted), load
the referenced session, fail if absent or `expiresAt < now`, fail if the
embedded user no longer exists, otherwise mint a fresh pair for the same
`sessionId` via `generateTokens`. -/
def refreshTokens (db : Db) (tok : SignedToken) (nowMs : Nat) :
    Option (SignedToken × SignedToken) :=
  match jwtVerify tok .refreshSecret nowMs with
  | none => none
  | some decoded =>
    match findSession db decoded.sessionId with
    | none => none
    | some session =>
      if session.expiresAt < nowMs then none
      else
        match findUser db decoded.userId with
        | none => none
        | some uid => some (generateTokens uid decoded.sessionId nowMs)

example :
    refreshTokens ⟨[⟨"s1", "u1", 1000⟩], ["u1"]⟩
      ⟨⟨"u1", "s1", .refresh⟩, .refreshSecret, 2000⟩ 500 =
    some (generateTokens "u1" "s1" 500) := by decide

example :
    refreshTokens ⟨[⟨"s1", "u1", 1000⟩], []⟩
      ⟨⟨"u1", "s1", .refresh⟩, .refreshSecret, 2000⟩ 500 = none := by decide

/-! ## Presence / Realtime Gateway
(`setupSocketServer`, src/backend/src/middleware/auth.ts lines 214-448)

A connection is a socket of the `/study` namespace: its authenticated user,
the mutable `currentStudy` pointer, and the set of socket.io rooms it has
joined (insertion-ordered, `socket.join` is idempotent). The server state
is the list of connected sockets. Handler effects are the list of emitted
events, in emission order. -/

/-- The user fields attached to a socket at handshake and used in every
presence payload. -/
structure SUser where
  id : String
  username : String
  firstName : String
  lastName : String
deriving DecidableEq, Repr

/-- One connected socket of the `/study` namespace. -/
structure Conn where
  sockId : Nat
  user : SUser
  currentStudy : Option String
  rooms : List String
deriving DecidableEq, Repr

/-- The socket.io room name `` `study:${studyId}` ``. -/
def studyRoom (studyId : String) : String := "study:" ++ studyId

/-- The events the handlers emit, in the order the code emits them.
`userJoined`, `userLeft` and `commentAdded` are room broadcasts
(`userJoined`/`userLeft` exclude the acting socket, `commentAdded` does
not); `errorTo` and `activeUsers` are unicast to one socket. -/
inductive Emission where
  | errorTo (sockId : Nat) (message : String)
  | userJoined (room : String) (u : SUser)
  | activeUsers (sockId : Nat) (users : List SUser)
  | userLeft (room : String) (userId username : String)
  | commentAdded (room : String) (commentId authorId : String)
deriving DecidableEq, Repr

/-- Look a socket up by id in the namespace. -/
def findConn (st : List Conn) (sid : Nat) : Option Conn :=
  st.find? (fun c => c.sockId = sid)

/-- Apply `f` to the socket with id `sid`. -/
def updateConn (st : List Conn) (sid : Nat) (f : Conn → Conn) : List Conn :=
  st.map (fun c => if c.sockId = sid then f c else c)

/-- `socket.join(room)`: adds the room to the socket's room set (idempotent,
never removes any other room). -/
def joinRoom (c : Conn) (room : String) : Conn :=
  { c with rooms := if room ∈ c.rooms then c.rooms else c.rooms ++ [room] }

/-- `getActiveUsersInStudy` (auth.ts lines 435-448): fetch the sockets in
the study's room and project their user fields. -/
def getActiveUsersInStudy (st : List Conn) (studyId : String) : List SUser :=
  (st.filter (fun c => studyRoom studyId ∈ c.rooms)).map (fun c => c.user)

/-- The `join-study` handler (auth.ts lines 258-287). `access` is the
`verifyStudyAccess` collaborator (group-membership lookup, lines 421-433).
On denial only an `error` event is emitted and the state is unchanged. On
success the code runs, in order: `socket.join`, `currentStudy := studyId`,
the `user-joined` broadcast to the room, then `getActiveUsersInStudy` on
the post-join state, unicast as `active-users` to the joiner. No room is
ever left by this handler. -/
def joinStudy (access : String → String → Bool) (st : List Conn) (sid : Nat)
    (studyId : String) : List Conn × List Emission :=
  match findConn st sid with
  | none => (st, [])
  | some c =>
    if access c.user.id studyId then
      let st' := updateConn st sid
        (fun c0 => { joinRoom c0 (studyRoom studyId) with currentStudy := some studyId })
      (st', [.userJoined (studyRoom studyId) c.user,
             .activeUsers sid (getActiveUsersInStudy st' studyId)])
    else
      (st, [.errorTo sid "Access denied to study"])

/-- The `leave-study` handler (auth.ts lines 290-299): when bound to a
study, broadcast `user-left` to its room, leave the room, clear
`currentStudy`; otherwise do nothing. -/
def leaveStudy (st : List Conn) (sid : Nat) : List Conn × List Emission :=
  match findConn st sid with
  | none => (st, [])
  | some c =>
    match c.currentStudy with
    | none => (st, [])
    | some s =>
      let st' := updateConn st sid (fun c0 =>
        { c0 with rooms := c0.rooms.filter (fun r => r ≠ studyRoom s),
                  currentStudy := none })
      (st', [.userLeft (studyRoom s) c.user.id c.user.username])

/-- A persisted comment row as created by the `add-comment` handler. -/
structure DbComment where
  id : String
  content : String
  authorId : String
  studyId : Option String
  weekId : Option String
  parentId : Option String
deriving DecidableEq, Repr

/-- The `add-comment` handler (auth.ts lines 302-346): the comment is
persisted unconditionally (`prisma.comment.create`) for the authenticated
socket, then broadcast as `comment-added` to `data.studyId ||
socket.currentStudy` when that is set. No membership check of any kind is
consulted between receipt and persistence. `newId` is the id the store
assigns. -/
def addCommentHandler (st : List Conn) (store : List DbComment) (sid : Nat)
    (dataStudyId dataWeekId dataParentId : Option String) (content : String)
    (newId : String) : List DbComment × List Emission :=
  match findConn st sid with
  | none => (store, [])
  | some c =>
    let comment : DbComment :=
      ⟨newId, content, c.user.id, dataStudyId, dataWeekId, dataParentId⟩
    let store' := store ++ [comment]
    let targetStudy :=
      match dataStudyId with
      | some s => some s
      | none => c.currentStudy
    match targetStudy with
    | some t => (store', [.commentAdded (studyRoom t) newId c.user.id])
    | none => (store', [])

/-- The `disconnect` handler (auth.ts lines 406-414): a socket that was
bound to a study broadcasts one `user-left`; an unbound one broadcasts
nothing. The socket is removed from the namespace by the transport. -/
def disconnectConn (st : List Conn) (sid : Nat) : List Conn × List Emission :=
  match findConn st sid with
  | none => (st, [])
  | some c =>
    let st' := st.filter (fun c0 => c0.sockId ≠ sid)
    match c.currentStudy with
    | some s => (st', [.userLeft (studyRoom s) c.user.id c.user.username])
    | none => (st', [])

/-! ## Helper lemmas: slicing and trimming -/

theorem strSlice_eq_drop_take (doc : List Char) (a b : Nat) :
    strSlice doc a b = (doc.drop a).take (b - a) := by
  simp [strSlice, List.drop_take]

theorem length_strSlice (doc : List Char) (a b : Nat) :
    (strSlice doc a b).length = min (b - a) (doc.length - a) := by
  simp [strSlice_eq_drop_take]

theorem rtrim_append_ws (l : List Char) :
    ∃ t, rtrim l ++ t = l ∧ ∀ c ∈ t, isWs c = true := by
  induction l with
  | nil => exact ⟨[], rfl, by simp⟩
  | cons c cs ih =>
    obtain ⟨t, ht, hws⟩ := ih
    cases hr : rtrim cs with
    | nil =>
      rw [hr] at ht
      by_cases hc : isWs c
      · refine ⟨c :: cs, ?_, ?_⟩
        · simp [rtrim, hr, hc]
        · intro x hx
          rcases List.mem_cons.mp hx with h | h
          · exact h ▸ hc
          · exact hws x (by simpa [← ht] using h)
      · refine ⟨t, ?_, hws⟩
        simp only [rtrim, hr]
        rw [if_neg hc]
        simpa using ht
    | cons y ys =>
      refine ⟨t, ?_, hws⟩
      have hcs : (y :: ys) ++ t = cs := by rw [← hr]; exact ht
      simp only [rtrim, hr, List.cons_append]
      simp only [List.cons_append] at hcs
      exact congrArg (List.cons c) hcs

theorem trim_of_no_leading (l : List Char) (h : ltrim l = l) : trim l = rtrim l := by
  simp [trim, h]

theorem trim_nil : trim [] = [] := rfl

/-- The core re-slicing fact: when the raw selection `strSlice doc s e` has
no leading whitespace, the flattened text at the anchor's recorded offsets
`[s, s + |trim raw|)` is exactly the trimmed selection, and that range lies
inside the document. -/
theorem anchor_slice_trim (doc : List Char) (s e : Nat)
    (hl : ltrim (strSlice doc s e) = strSlice doc s e)
    (hne : trim (strSlice doc s e) ≠ []) :
    strSlice doc s (s + (trim (strSlice doc s e)).length) = trim (strSlice doc s e) ∧
    s + (trim (strSlice doc s e)).length ≤ doc.length := by
  set raw := strSlice doc s e with hraw
  have hsel : trim raw = rtrim raw := trim_of_no_leading raw hl
  obtain ⟨t, hdecomp, -⟩ := rtrim_append_ws raw
  set sel := trim raw with hseldef
  rw [← hsel] at hdecomp
  have hkraw : sel.length ≤ raw.length := by
    rw [← hdecomp]; simp
  have hrawlen : raw.length = min (e - s) (doc.length - s) := by
    rw [hraw, length_strSlice]
  have hrawne : raw ≠ [] := by
    intro h
    exact hne (by simp [hseldef, h, trim_nil])
  have hrawpos : 0 < raw.length := List.length_pos.mpr hrawne
  have hselpos : 0 < sel.length := List.length_pos.mpr hne
  have hsle : s < doc.length := by
    have := hrawlen ▸ hrawpos
    omega
  constructor
  · have htake : raw.take sel.length = sel := by
      conv_lhs => rw [← hdecomp]
      exact List.take_left sel t
    have hk_le : sel.length ≤ e - s := by
      have := hrawlen ▸ hkraw
      omega
    rw [strSlice_eq_drop_take]
    have hlen : s + sel.length - s = sel.length := by omega
    rw [hlen]
    rw [hraw, strSlice_eq_drop_take] at htake
    have h2 : List.take sel.length (List.take (e - s) (List.drop s doc)) =
        List.take sel.length (List.drop s doc) := by
      rw [List.take_take, min_eq_left hk_le]
    rw [← h2]
    exact htake
  · have : sel.length ≤ doc.length - s := by
      have := hrawlen ▸ hkraw
      omega
    omega

/-- Every anchor `createAnchor` actually produces satisfies the anchor
invariant `endOffset = startOffset + selectedText.length` with a non-empty
`selectedText` (the whitespace-trimmed selection). -/
theorem createAnchor_wellformed (doc : List Char) (s e : Nat) (a : TextAnchor)
    (h : createAnchor doc s e = some a) :
    a.startOffset = s ∧
    a.selectedText = trim (strSlice doc s e) ∧
    a.endOffset = a.startOffset + a.selectedText.length ∧
    a.selectedText ≠ [] := by
  by_cases hsel : trim (strSlice doc s e) = []
  · simp [createAnchor, hsel] at h
  · simp only [createAnchor, hsel, if_neg, ite_false] at h
    obtain rfl := Option.some.injEq _ _ ▸ h.symm
    exact ⟨rfl, rfl, rfl, hsel⟩

/-- C1 (amended): for every span of the document whose raw selected text
has no **leading** whitespace, resolving the created anchor against the
unmodified document succeeds via the exact-offset tier, at the position of
the end of the trimmed span, `s + |trim(D[s:e])|` (which equals `e` when
there is also no trailing whitespace). With leading whitespace the exact
tier fails, because `handleAddComment` records the raw selection start as
`startOffset` while `handleMouseUp` stores the trimmed selection text. -/
theorem resolve_roundtrip_no_leading_ws (doc : List Char) (s e : Nat) (a : TextAnchor)
    (hl : ltrim (strSlice doc s e) = strSlice doc s e)
    (hsome : createAnchor doc s e = some a) :
    a.startOffset = s ∧
    a.endOffset = s + (trim (strSlice doc s e)).length ∧
    exactTierPos doc a = some a.endOffset ∧
    calculatePositionForTextAnchor doc a = some a.endOffset := by
  obtain ⟨hs, hseltext, hend, hne⟩ := createAnchor_wellformed doc s e a hsome
  have hne' : trim (strSlice doc s e) ≠ [] := hseltext ▸ hne
  obtain ⟨hslice, hbound⟩ := anchor_slice_trim doc s e hl hne'
  have hend' : a.endOffset = s + (trim (strSlice doc s e)).length := by
    rw [hend, hs, hseltext]
  have hexact : exactTierPos doc a = some a.endOffset := by
    rw [exactTierPos, if_pos]
    constructor
    · rw [hs, hend', hseltext]; exact hslice
    · rw [hend']; exact hbound
  refine ⟨hs, hend', hexact, ?_⟩
  rw [calculatePositionForTextAnchor, hexact]

/-- C1 (counterexample): on the document `"ab cd"`, the raw selection
`[2, 5)` is `" cd"`; the created anchor stores the trimmed text `"cd"` with
`startOffset = 2`, `endOffset = 4`, and the exact-offset tier **fails**
(`doc[2:4] = " c" ≠ "cd"`); resolution succeeds only through the fallback
scan, at position `5`. The claim that resolution succeeds via the
exact-offset tier for every non-empty span is therefore false. -/
theorem resolve_roundtrip_counterexample :
    createAnchor ['a','b',' ','c','d'] 2 5 =
      some ⟨['c','d'], 2, 4, ['a','b',' ','c','d']⟩ ∧
    exactTierPos ['a','b',' ','c','d'] ⟨['c','d'], 2, 4, ['a','b',' ','c','d']⟩ = none ∧
    calculatePositionForTextAnchor ['a','b',' ','c','d']
      ⟨['c','d'], 2, 4, ['a','b',' ','c','d']⟩ = some 5 := by
  decide

/-- C1 (witness): the amended round-trip theorem applied to the concrete
document `"ab cd"` and the whitespace-free span `[3, 5)`. -/
theorem resolve_roundtrip_no_leading_ws_witness :
    ltrim (strSlice ['a','b',' ','c','d'] 3 5) = strSlice ['a','b',' ','c','d'] 3 5 ∧
    createAnchor ['a','b',' ','c','d'] 3 5 =
      some ⟨['c','d'], 3, 5, ['a','b',' ','c','d']⟩ ∧
    exactTierPos ['a','b',' ','c','d'] ⟨['c','d'], 3, 5, ['a','b',' ','c','d']⟩ =
      some (⟨['c','d'], 3, 5, ['a','b',' ','c','d']⟩ : TextAnchor).endOffset :=
  ⟨by decide, by decide,
    (resolve_roundtrip_no_leading_ws ['a','b',' ','c','d'] 3 5
      ⟨['c','d'], 3, 5, ['a','b',' ','c','d']⟩ (by decide) (by decide)).2.2.1⟩

/-- C4 (amended): `selectedText == document[startOffset:endOffset]` holds
at anchor-creation time whenever the user's raw selection has no
**leading** whitespace; trailing whitespace is trimmed away and `endOffset`
shrinks with it, so the invariant still holds there. When the raw selection
has leading whitespace the invariant fails, because the trimmed text is
recorded against the untrimmed selection start. -/
theorem createAnchor_selectedText_invariant (doc : List Char) (s e : Nat) (a : TextAnchor)
    (hl : ltrim (strSlice doc s e) = strSlice doc s e)
    (hsome : createAnchor doc s e = some a) :
    strSlice doc a.startOffset a.endOffset = a.selectedText := by
  obtain ⟨hs, hseltext, hend, hne⟩ := createAnchor_wellformed doc s e a hsome
  have hne' : trim (strSlice doc s e) ≠ [] := hseltext ▸ hne
  obtain ⟨hslice, -⟩ := anchor_slice_trim doc s e hl hne'
  rw [hs, hend, hs, hseltext]
  exact hslice

/-- C4 (counterexample): selecting `" cd"` (the span `[2, 5)`, leading
whitespace included) in the document `"ab cd"` produces the anchor
`{selectedText := "cd", startOffset := 2, endOffset := 4}`, and
`doc[2:4] = " c" ≠ "cd"`: the creation-time invariant fails for raw
selections with leading whitespace. -/
theorem createAnchor_selectedText_counterexample :
    createAnchor ['a','b',' ','c','d'] 2 5 =
      some ⟨['c','d'], 2, 4, ['a','b',' ','c','d']⟩ ∧
    strSlice ['a','b',' ','c','d'] 2 4 = [' ','c'] ∧
    strSlice ['a','b',' ','c','d'] 2 4 ≠ ['c','d'] := by
  decide

/-- C4 (witness): the amended invariant applied to the document `"ab cd"`
and the raw selection `"cd "` (span `[3, 6)` of `"ab cd "`), which has
trailing but no leading whitespace. -/
theorem createAnchor_selectedText_invariant_witness :
    ltrim (strSlice ['a','b',' ','c','d',' '] 3 6) = strSlice ['a','b',' ','c','d',' '] 3 6 ∧
    createAnchor ['a','b',' ','c','d',' '] 3 6 =
      some ⟨['c','d'], 3, 5, ['a','b',' ','c','d',' ']⟩ ∧
    strSlice ['a','b',' ','c','d',' ']
        (⟨['c','d'], 3, 5, ['a','b',' ','c','d',' ']⟩ : TextAnchor).startOffset
        (⟨['c','d'], 3, 5, ['a','b',' ','c','d',' ']⟩ : TextAnchor).endOffset =
      (⟨['c','d'], 3, 5, ['a','b',' ','c','d',' ']⟩ : TextAnchor).selectedText :=
  ⟨by decide, by decide,
    createAnchor_selectedText_invariant ['a','b',' ','c','d',' '] 3 6
      ⟨['c','d'], 3, 5, ['a','b',' ','c','d',' ']⟩ (by decide) (by decide)⟩

/-- C8: the two-tier resolution contract of
`calculatePositionForTextAnchor`, for every document text and every
well-formed anchor (`endOffset = startOffset + selectedText.length` with
non-empty `selectedText`, the invariant every anchor built by
`createAnchor` satisfies — see `createAnchor_wellformed`):
(1) when the exact-offset check `doc[startOffset:endOffset] ==
selectedText` succeeds, resolution returns the exact span's end position
without consulting the fallback; (2) when it fails, resolution is exactly
the fallback scan; (3) the fallback locates the first occurrence of
`selectedText` and returns the position of its end; (4) resolution returns
`NotFound` exactly when the exact check fails and `selectedText` occurs
nowhere. -/
theorem resolve_two_tier (doc : List Char) (a : TextAnchor)
    (hwf : a.endOffset = a.startOffset + a.selectedText.length)
    (hne : a.selectedText ≠ []) :
    (strSlice doc a.startOffset a.endOffset = a.selectedText →
      exactTierPos doc a = some a.endOffset ∧
      calculatePositionForTextAnchor doc a = some a.endOffset) ∧
    (strSlice doc a.startOffset a.endOffset ≠ a.selectedText →
      calculatePositionForTextAnchor doc a = fallbackPos doc a) ∧
    (∀ i, strSlice doc a.startOffset a.endOffset ≠ a.selectedText →
      indexOfSub a.selectedText doc = some i →
      calculatePositionForTextAnchor doc a = some (i + a.selectedText.length)) ∧
    (calculatePositionForTextAnchor doc a = none ↔
      (strSlice doc a.startOffset a.endOffset ≠ a.selectedText ∧
       indexOfSub a.selectedText doc = none)) := by
  have hbound : strSlice doc a.startOffset a.endOffset = a.selectedText →
      a.endOffset ≤ doc.length := by
    intro hex
    have hlen := congrArg List.length hex
    rw [length_strSlice] at hlen
    have hnpos : 0 < a.selectedText.length := List.length_pos.mpr hne
    omega
  have hpos : strSlice doc a.startOffset a.endOffset = a.selectedText →
      exactTierPos doc a = some a.endOffset := by
    intro hex
    rw [exactTierPos, if_pos ⟨hex, hbound hex⟩]
  have hneg : strSlice doc a.startOffset a.endOffset ≠ a.selectedText →
      exactTierPos doc a = none := by
    intro hex
    rw [exactTierPos, if_neg]
    intro ⟨h1, _⟩
    exact hex h1
  refine ⟨?_, ?_, ?_, ?_⟩
  · intro hex
    refine ⟨hpos hex, ?_⟩
    rw [calculatePositionForTextAnchor, hpos hex]
  · intro hex
    rw [calculatePositionForTextAnchor, hneg hex]
  · intro i hex hidx
    rw [calculatePositionForTextAnchor, hneg hex, fallbackPos, hidx]
  · constructor
    · intro hnone
      by_cases hex : strSlice doc a.startOffset a.endOffset = a.selectedText
      · rw [calculatePositionForTextAnchor, hpos hex] at hnone
        exact absurd hnone (by simp)
      · rw [calculatePositionForTextAnchor, hneg hex, fallbackPos] at hnone
        refine ⟨hex, ?_⟩
        cases hidx : indexOfSub a.selectedText doc with
        | none => rfl
        | some i => rw [hidx] at hnone; exact absurd hnone (by simp)
    · intro ⟨hex, hidx⟩
      rw [calculatePositionForTextAnchor, hneg hex, fallbackPos, hidx]

/-- C8 (witness): the two-tier contract applied to the document `"ab cd"`
and the anchor on `"cd"` at `[3, 5)`: the exact check holds and resolution
returns position `5`. -/
theorem resolve_two_tier_witness :
    (⟨['c','d'], 3, 5, []⟩ : TextAnchor).endOffset =
      (⟨['c','d'], 3, 5, []⟩ : TextAnchor).startOffset +
        (⟨['c','d'], 3, 5, []⟩ : TextAnchor).selectedText.length ∧
    calculatePositionForTextAnchor ['a','b',' ','c','d'] ⟨['c','d'], 3, 5, []⟩ =
      some 5 :=
  ⟨rfl,
    ((resolve_two_tier ['a','b',' ','c','d'] ⟨['c','d'], 3, 5, []⟩ rfl
      (by decide)).1 (by decide)).2⟩

/-! ## Helper lemmas: grouping -/

theorem addToGroups_same (l : List Comment) (k : String) (c : Comment) :
    addToGroups [(k, l)] k c = [(k, l ++ [c])] := by
  simp [addToGroups]

theorem groups_fold_same (cs : List Comment) (k : String) :
    ∀ l, (∀ c ∈ cs, commentKey c = some k) →
      cs.foldl groupStep [(k, l)] = [(k, l ++ cs)] := by
  induction cs with
  | nil => intro l _; simp
  | cons c cs ih =>
    intro l h
    have hk := h c (List.mem_cons_self c cs)
    simp only [List.foldl_cons]
    have hstep : groupStep [(k, l)] c = [(k, l ++ [c])] := by
      simp only [groupStep, hk, addToGroups_same]
    rw [hstep, ih (l ++ [c]) (fun d hd => h d (List.mem_cons_of_mem c hd))]
    simp

theorem commentGroups_all_same (cs : List Comment) (k : String)
    (hne : cs ≠ []) (hall : ∀ c ∈ cs, commentKey c = some k) :
    commentGroups cs = [(k, cs)] := by
  cases cs with
  | nil => exact absurd rfl hne
  | cons c cs =>
    have hk := hall c (List.mem_cons_self c cs)
    rw [commentGroups]
    simp only [List.foldl_cons]
    have hstep : groupStep [] c = [(k, [c])] := by
      simp only [groupStep, hk, addToGroups]
    rw [hstep, groups_fold_same cs k [c] (fun d hd => hall d (List.mem_cons_of_mem c hd))]
    rfl

theorem insertKeyed_fst (m : List (String × Author)) (k : String) (v : Author) :
    (insertKeyed m k v).map Prod.fst =
      if k ∈ m.map Prod.fst then m.map Prod.fst else m.map Prod.fst ++ [k] := by
  induction m with
  | nil => simp [insertKeyed]
  | cons p rest ih =>
    obtain ⟨k', v'⟩ := p
    by_cases h : k' = k
    · subst h
      simp [insertKeyed]
    · simp only [insertKeyed, if_neg h, List.map_cons, ih, List.mem_cons]
      by_cases hk : k ∈ rest.map Prod.fst
      · simp [hk, Ne.symm h]
      · simp [hk, Ne.symm h]

/-- The author-id insertion step of `uniqueUsers`. -/
def uuStep (m : List (String × Author)) (c : Comment) : List (String × Author) :=
  insertKeyed m c.author.id c.author

theorem uniqueUsers_eq_fold (l : List Comment) :
    uniqueUsers l = (l.foldl uuStep []).map Prod.snd := rfl

theorem uuFold_keys (cs : List Comment) :
    ∀ m : List (String × Author), ((m.map Prod.fst).Nodup) →
      (((cs.foldl uuStep m).map Prod.fst).Nodup ∧
       ((cs.foldl uuStep m).map Prod.fst).toFinset =
         (m.map Prod.fst).toFinset ∪ (cs.map (fun c => c.author.id)).toFinset) := by
  induction cs with
  | nil => intro m hm; simp [hm]
  | cons c cs ih =>
    intro m hm
    simp only [List.foldl_cons]
    have hstep : (uuStep m c).map Prod.fst =
        if c.author.id ∈ m.map Prod.fst then m.map Prod.fst
        else m.map Prod.fst ++ [c.author.id] :=
      insertKeyed_fst m c.author.id c.author
    by_cases h : c.author.id ∈ m.map Prod.fst
    · rw [if_pos h] at hstep
      obtain ⟨hnd, hfin⟩ := ih (uuStep m c) (hstep ▸ hm)
      refine ⟨hnd, ?_⟩
      rw [hfin, hstep]
      ext x
      simp only [Finset.mem_union, List.map_cons, List.toFinset_cons,
        Finset.mem_insert, List.mem_toFinset]
      constructor
      · rintro (hx | hx)
        · exact Or.inl hx
        · exact Or.inr (Or.inr hx)
      · rintro (hx | rfl | hx)
        · exact Or.inl hx
        · exact Or.inl h
        · exact Or.inr hx
    · rw [if_neg h] at hstep
      have hnd' : ((uuStep m c).map Prod.fst).Nodup := by
        rw [hstep]
        refine List.Nodup.append hm (List.nodup_singleton _) ?_
        intro a ha hb
        simp only [List.mem_singleton] at hb
        exact h (hb ▸ ha)
      obtain ⟨hnd, hfin⟩ := ih (uuStep m c) hnd'
      refine ⟨hnd, ?_⟩
      rw [hfin, hstep]
      ext x
      simp only [List.toFinset_append, Finset.mem_union, List.map_cons,
        List.toFinset_cons, Finset.mem_insert, List.mem_toFinset,
        List.mem_singleton, List.toFinset_nil, Finset.not_mem_empty, or_false]
      tauto

theorem uniqueUsers_length (cs : List Comment) :
    (uniqueUsers cs).length = (cs.map (fun c => c.author.id)).toFinset.card := by
  obtain ⟨hnd, hfin⟩ := uuFold_keys cs [] (by simp)
  rw [uniqueUsers_eq_fold, List.length_map]
  have hlen : (cs.foldl uuStep []).length =
      ((cs.foldl uuStep []).map Prod.fst).length := by simp
  rw [hlen, ← List.toFinset_card_of_nodup hnd, hfin]
  simp

theorem perm_toFinset {l₁ l₂ : List String} (h : l₁.Perm l₂) :
    l₁.toFinset = l₂.toFinset := by
  ext x
  simp [List.mem_toFinset, h.mem_iff]

theorem mem_addToGroups_rec (k : String) (c : Comment) (x : Comment) :
    ∀ gs g, g ∈ addToGroups gs k c → x ∈ g.2 →
      (∃ g0 ∈ gs, x ∈ g0.2) ∨ x = c := by
  intro gs
  induction gs with
  | nil =>
    intro g hg hx
    simp only [addToGroups, List.mem_singleton] at hg
    subst hg
    simp only [List.mem_singleton] at hx
    exact Or.inr hx
  | cons p rest ih =>
    intro g hg hx
    obtain ⟨k', l⟩ := p
    by_cases h : k' = k
    · rw [show addToGroups ((k', l) :: rest) k c = (k', l ++ [c]) :: rest by
        simp [addToGroups, h]] at hg
      rw [List.mem_cons] at hg
      cases hg with
      | inl heq =>
        have hx' : x ∈ l ++ [c] := by rw [heq] at hx; exact hx
        rw [List.mem_append, List.mem_singleton] at hx'
        cases hx' with
        | inl hx' => exact Or.inl ⟨(k', l), List.mem_cons_self _ _, hx'⟩
        | inr hx' => exact Or.inr hx'
      | inr hg => exact Or.inl ⟨g, List.mem_cons_of_mem _ hg, hx⟩
    · rw [show addToGroups ((k', l) :: rest) k c = (k', l) :: addToGroups rest k c by
        simp [addToGroups, h]] at hg
      rw [List.mem_cons] at hg
      cases hg with
      | inl heq =>
        refine Or.inl ⟨(k', l), List.mem_cons_self _ _, ?_⟩
        rw [heq] at hx; exact hx
      | inr hg =>
        rcases ih g hg hx with ⟨g0, hg0, hxg0⟩ | hxc
        · exact Or.inl ⟨g0, List.mem_cons_of_mem _ hg0, hxg0⟩
        · exact Or.inr hxc

theorem commentGroups_mem_keyed (ds : List Comment) :
    ∀ gs, (∀ g ∈ gs, ∀ x ∈ g.2, commentKey x ≠ none) →
      ∀ g ∈ ds.foldl groupStep gs, ∀ x ∈ g.2, commentKey x ≠ none := by
  induction ds with
  | nil => intro gs h; simpa using h
  | cons d ds ih =>
    intro gs h
    simp only [List.foldl_cons]
    apply ih
    intro g hg x hx
    cases hd : commentKey d with
    | none =>
      rw [groupStep, hd] at hg
      exact h g hg x hx
    | some k =>
      rw [groupStep, hd] at hg
      rcases mem_addToGroups_rec k d x gs g hg hx with ⟨g0, hg0, hxg0⟩ | rfl
      · exact h g0 hg0 x hxg0
      · rw [hd]; simp

/-- C9: on any non-empty list of comments that all carry a `textAnchor`
position with one common `(startOffset, endOffset)` pair, the grouping
loop produces exactly one marker holding all the comments in input order;
its distinct-participant count is the number of distinct author ids, which
is invariant under every permutation of the input; and a comment lacking a
text anchor is a member of no marker of any grouping. -/
theorem groupByAnchor_single_marker (cs : List Comment) (p0 : AnchorPosition)
    (hne : cs ≠ [])
    (hall : ∀ c ∈ cs, c.position.map (fun p => (p.ptype, p.startOffset, p.endOffset)) =
      some ("textAnchor", p0.startOffset, p0.endOffset)) :
    commentGroups cs = [(anchorKey p0, cs)] ∧
    (uniqueUsers cs).length = (cs.map (fun c => c.author.id)).toFinset.card ∧
    (∀ cs', cs.Perm cs' →
      commentGroups cs' = [(anchorKey p0, cs')] ∧
      (uniqueUsers cs').length = (uniqueUsers cs).length) ∧
    (∀ (ds : List Comment) (c : Comment), commentKey c = none →
      ∀ g ∈ commentGroups ds, c ∉ g.2) := by
  have hkey : ∀ (ds : List Comment), (∀ c ∈ ds,
      c.position.map (fun p => (p.ptype, p.startOffset, p.endOffset)) =
        some ("textAnchor", p0.startOffset, p0.endOffset)) →
      ∀ c ∈ ds, commentKey c = some (anchorKey p0) := by
    intro ds hds c hc
    have h := hds c hc
    cases hcp : c.position with
    | none => rw [hcp] at h; exact absurd h (by simp)
    | some p =>
      rw [hcp] at h
      have h2 : (p.ptype, p.startOffset, p.endOffset) =
          ("textAnchor", p0.startOffset, p0.endOffset) := Option.some.inj h
      have hty : p.ptype = "textAnchor" := congrArg Prod.fst h2
      have hso : p.startOffset = p0.startOffset := congrArg (fun q => q.2.1) h2
      have heo : p.endOffset = p0.endOffset := congrArg (fun q => q.2.2) h2
      simp only [commentKey, hcp]
      simp [hty, anchorKey, hso, heo]
  refine ⟨commentGroups_all_same cs (anchorKey p0) hne (hkey cs hall),
    uniqueUsers_length cs, ?_, ?_⟩
  · intro cs' hperm
    have hne' : cs' ≠ [] := by
      intro h
      subst h
      exact hne (List.eq_nil_of_length_eq_zero (by simpa using hperm.length_eq))
    have hall' : ∀ c ∈ cs', c.position.map (fun p => (p.ptype, p.startOffset, p.endOffset)) =
        some ("textAnchor", p0.startOffset, p0.endOffset) :=
      fun c hc => hall c (hperm.mem_iff.mpr hc)
    refine ⟨commentGroups_all_same cs' (anchorKey p0) hne' (hkey cs' hall'), ?_⟩
    rw [uniqueUsers_length, uniqueUsers_length]
    rw [perm_toFinset (hperm.map (fun c => c.author.id))]
  · intro ds c hc g hg hmem
    exact commentGroups_mem_keyed ds [] (by simp) g hg c hmem hc

/-- A text-anchored position shared by the witness comments. -/
def pW : AnchorPosition := ⟨"textAnchor", ['I','n'], 10, 27⟩

def cW1 : Comment := ⟨"c1", "Note the tense", ⟨"uA", "alice"⟩, 100, some pW⟩

def cW2 : Comment := ⟨"c2", "Agreed", ⟨"uB", "bob"⟩, 200, some pW⟩

/-- C9 (witness): two comments by distinct authors on the anchor
`(10, 27)` group into one marker holding both, in order, with
participant count 2. -/
theorem groupByAnchor_single_marker_witness :
    commentGroups [cW1, cW2] = [(anchorKey pW, [cW1, cW2])] ∧
    (uniqueUsers [cW1, cW2]).length =
      ([cW1, cW2].map (fun c => c.author.id)).toFinset.card :=
  ⟨(groupByAnchor_single_marker [cW1, cW2] pW (by decide) (by decide)).1,
   (groupByAnchor_single_marker [cW1, cW2] pW (by decide) (by decide)).2.1⟩

/-- Two comments on one anchor, created at times 1 and 2, listed
newest-first as `GET /week/:weekId` returns them. -/
def cOldest : Comment := ⟨"k1", "first thought", ⟨"u1", "alice"⟩, 1, some pW⟩

def cNewest : Comment := ⟨"k2", "second thought", ⟨"u2", "bob"⟩, 2, some pW⟩

/-- C5 (code bug): the backend feeds the grouping view comments ordered
newest-first (`orderBy createdAt desc`, src/unnamed/part_002), grouping
preserves that order, and the preview
`groupComments[groupComments.length - 1]` (rendered under the label
"Latest", src/unnamed/part_007 lines 438 and 451) therefore selects the
comment with the **minimal** `createdAt` — the oldest, not the most
recently created one the label and the spec describe. -/
theorem latestComment_preview_is_oldest :
    sortedNewestFirst [cNewest, cOldest] ∧
    commentGroups [cNewest, cOldest] = [(anchorKey pW, [cNewest, cOldest])] ∧
    previewComment [cNewest, cOldest] = some cOldest ∧
    cOldest.createdAt < cNewest.createdAt := by
  refine ⟨?_, by decide, by decide, by decide⟩
  simp [sortedNewestFirst, cNewest, cOldest]

/-! ## Helper lemmas: credential manager -/

theorem jwtVerify_payload (tok : SignedToken) (key : SecretKey) (n : Nat) (d : JWTPayload)
    (h : jwtVerify tok key n = some d) :
    d = tok.payload ∧ tok.key = key ∧ n < tok.expiresAtMs := by
  by_cases hc : tok.key = key ∧ n < tok.expiresAtMs
  · rw [jwtVerify, if_pos hc] at h
    exact ⟨(Option.some.inj h).symm, hc.1, hc.2⟩
  · rw [jwtVerify, if_neg hc] at h
    cases h

theorem jwtVerify_of_valid (tok : SignedToken) (key : SecretKey) (n : Nat)
    (hk : tok.key = key) (hn : n < tok.expiresAtMs) :
    jwtVerify tok key n = some tok.payload := by
  rw [jwtVerify, if_pos ⟨hk, hn⟩]

/-- C6 (amended): a refresh call whose referenced session is absent from
the store, or whose session's `expiresAt` is in the past, always fails;
when the session is present and unexpired, the presented token verifies
under the refresh secret, **and the user embedded in the token still
exists**, refresh returns a brand-new pair embedding the presented token's
`sessionId` in both components, and a second refresh with the newly issued
refresh token (against the still-valid session) succeeds with the same
`sessionId`. The user-existence condition is the one failure path the
claim omits: `refreshTokens` also loads `prisma.user` by the token's
`userId` and returns `null` when that row is gone. -/
theorem refreshTokens_session_semantics (db : Db) (tok : SignedToken) (nowMs : Nat) :
    (findSession db tok.payload.sessionId = none → refreshTokens db tok nowMs = none) ∧
    (∀ s, findSession db tok.payload.sessionId = some s → s.expiresAt < nowMs →
      refreshTokens db tok nowMs = none) ∧
    (∀ s u, tok.key = SecretKey.refreshSecret → nowMs < tok.expiresAtMs →
      findSession db tok.payload.sessionId = some s → ¬ s.expiresAt < nowMs →
      findUser db tok.payload.userId = some u →
      refreshTokens db tok nowMs =
        some (generateTokens u tok.payload.sessionId nowMs) ∧
      (generateTokens u tok.payload.sessionId nowMs).1.payload.sessionId =
        tok.payload.sessionId ∧
      (generateTokens u tok.payload.sessionId nowMs).2.payload.sessionId =
        tok.payload.sessionId ∧
      (∀ nowMs2 s2, findSession db tok.payload.sessionId = some s2 →
        ¬ s2.expiresAt < nowMs2 → nowMs2 < nowMs + thirtyDaysMs →
        refreshTokens db (generateTokens u tok.payload.sessionId nowMs).2 nowMs2 =
          some (generateTokens u tok.payload.sessionId nowMs2))) := by
  refine ⟨?_, ?_, ?_⟩
  · intro hnone
    cases hv : jwtVerify tok .refreshSecret nowMs with
    | none => simp [refreshTokens, hv]
    | some d =>
      obtain ⟨hd, -, -⟩ := jwtVerify_payload tok .refreshSecret nowMs d hv
      subst hd
      simp [refreshTokens, hv, hnone]
  · intro s hs hexp
    cases hv : jwtVerify tok .refreshSecret nowMs with
    | none => simp [refreshTokens, hv]
    | some d =>
      obtain ⟨hd, -, -⟩ := jwtVerify_payload tok .refreshSecret nowMs d hv
      subst hd
      simp [refreshTokens, hv, hs, hexp]
  · intro s u hk hexp hs hsexp hu
    have hequ : u = tok.payload.userId := by
      simpa using List.find?_some (p := fun x => x = tok.payload.userId) hu
    subst hequ
    have hv := jwtVerify_of_valid tok .refreshSecret nowMs hk hexp
    refine ⟨?_, rfl, rfl, ?_⟩
    · simp [refreshTokens, hv, hs, hsexp, hu]
    · intro nowMs2 s2 hs2 hs2exp hexp2
      have hv2 : jwtVerify
          ⟨⟨tok.payload.userId, tok.payload.sessionId, .refresh⟩,
            .refreshSecret, nowMs + thirtyDaysMs⟩ .refreshSecret nowMs2 =
          some ⟨tok.payload.userId, tok.payload.sessionId, .refresh⟩ :=
        jwtVerify_of_valid _ _ _ rfl hexp2
      simp [refreshTokens, generateTokens, hv2, hs2, hs2exp, hu]

/-- The store for the refresh counterexample: session `s1` for user `u1`
is alive (expires at 1000), but the `users` table is empty. -/
def dbC6 : Db := ⟨[⟨"s1", "u1", 1000⟩], []⟩

/-- A well-formed refresh token for session `s1`. -/
def tokC6 : SignedToken := ⟨⟨"u1", "s1", .refresh⟩, .refreshSecret, 2000⟩

/-- C6 (counterexample): with session `s1` present and unexpired at
`now = 500` and a valid refresh token, `refreshTokens` still returns
`null` when the token's user row is gone — the claim's "otherwise it
returns a brand-new pair" branch is false without the user-existence
condition. -/
theorem refreshTokens_user_absent_counterexample :
    findSession dbC6 tokC6.payload.sessionId = some ⟨"s1", "u1", 1000⟩ ∧
    ¬ (1000 : Nat) < 500 ∧
    jwtVerify tokC6 .refreshSecret 500 = some tokC6.payload ∧
    refreshTokens dbC6 tokC6 500 = none := by
  decide

/-- The store with both the session and the user present. -/
def dbC6ok : Db := ⟨[⟨"s1", "u1", 1000⟩], ["u1"]⟩

/-- C6 (witness): against `dbC6ok`, refreshing `tokC6` at 500 succeeds and
refreshing the newly issued refresh token at 600 succeeds again, both for
session `s1`. -/
theorem refreshTokens_session_semantics_witness :
    refreshTokens dbC6ok tokC6 500 = some (generateTokens "u1" "s1" 500) ∧
    refreshTokens dbC6ok (generateTokens "u1" "s1" 500).2 600 =
      some (generateTokens "u1" "s1" 600) :=
  ⟨((refreshTokens_session_semantics dbC6ok tokC6 500).2.2 ⟨"s1", "u1", 1000⟩ "u1"
      rfl (by decide) (by decide) (by decide) (by decide)).1,
   ((refreshTokens_session_semantics dbC6ok tokC6 500).2.2 ⟨"s1", "u1", 1000⟩ "u1"
      rfl (by decide) (by decide) (by decide) (by decide)).2.2.2 600
      ⟨"s1", "u1", 1000⟩ (by decide) (by decide) (by decide)⟩

/-- C7 (amended): `refreshTokens` verifies the presented token's signature
(against the refresh secret) and its expiry, but never inspects the
embedded `kind`; every token signed with the **access** secret — in
particular every access-kind token `generateTokens` mints — fails refresh,
so for tokens the system itself issues the claimed behaviour coincides,
while a token carrying the refresh-secret signature with a non-refresh
kind would be accepted. -/
theorem refreshTokens_signature_only (db : Db) (tok : SignedToken) (nowMs : Nat)
    (userId sessionId : String) (mintMs : Nat) :
    (tok.key = SecretKey.accessSecret → refreshTokens db tok nowMs = none) ∧
    refreshTokens db (generateTokens userId sessionId mintMs).1 nowMs = none ∧
    (generateTokens userId sessionId mintMs).1.payload.ttype = TokenType.access := by
  have hfail : ∀ t : SignedToken, t.key = SecretKey.accessSecret →
      refreshTokens db t nowMs = none := by
    intro t hk
    have hv : jwtVerify t .refreshSecret nowMs = none := by
      rw [jwtVerify, if_neg]
      intro ⟨h1, _⟩
      rw [hk] at h1
      cases h1
    simp [refreshTokens, hv]
  exact ⟨hfail tok, hfail _ rfl, rfl⟩

/-- A token embedding the **access** kind but carrying the refresh-secret
signature (never minted by `generateTokens`, whose kinds and secrets always
agree). -/
def tokC7 : SignedToken := ⟨⟨"u1", "s1", .access⟩, .refreshSecret, 2000⟩

/-- C7 (counterexample): the embedded kind is not checked — a token whose
kind is `access` but whose signature is the refresh secret is accepted by
`refreshTokens`, refuting "for every token whose embedded kind is not the
refresh kind, refresh fails". -/
theorem refreshTokens_kind_unchecked_counterexample :
    tokC7.payload.ttype = TokenType.access ∧
    refreshTokens dbC6ok tokC7 500 = some (generateTokens "u1" "s1" 500) := by
  decide

/-- C7 (witness): a genuine access token (minted by `generateTokens`, thus
signed with the access secret) always fails refresh. -/
theorem refreshTokens_signature_only_witness :
    refreshTokens dbC6ok (generateTokens "u1" "s1" 0).1 500 = none :=
  (refreshTokens_signature_only dbC6ok (generateTokens "u1" "s1" 0).1 500
    "u1" "s1" 0).2.1

/-! ## Helper lemmas: presence and gateway -/

theorem mem_joinRoom_self (c : Conn) (room : String) :
    room ∈ (joinRoom c room).rooms := by
  rw [joinRoom]
  by_cases h : room ∈ c.rooms
  · simp only [if_pos h]
    exact h
  · simp [h]

theorem mem_joinRoom_of_mem (c : Conn) (room r : String) (h : r ∈ c.rooms) :
    r ∈ (joinRoom c room).rooms := by
  rw [joinRoom]
  by_cases hr : room ∈ c.rooms
  · simp only [if_pos hr]
    exact h
  · simp [hr, h]

theorem mem_updateConn_of_mem (st : List Conn) (sid : Nat) (f : Conn → Conn)
    (c : Conn) (hc : c ∈ st) (h : c.sockId = sid) : f c ∈ updateConn st sid f := by
  rw [updateConn]
  refine List.mem_map.mpr ⟨c, hc, ?_⟩
  show (if c.sockId = sid then f c else c) = f c
  rw [if_pos h]

theorem mem_updateConn_of_ne (st : List Conn) (sid : Nat) (f : Conn → Conn)
    (c : Conn) (hc : c ∈ st) (h : ¬ c.sockId = sid) : c ∈ updateConn st sid f := by
  rw [updateConn]
  refine List.mem_map.mpr ⟨c, hc, ?_⟩
  show (if c.sockId = sid then f c else c) = c
  rw [if_neg h]

theorem findConn_updateConn (st : List Conn) (sid : Nat) (f : Conn → Conn)
    (hf : ∀ c, (f c).sockId = c.sockId) :
    findConn (updateConn st sid f) sid = (findConn st sid).map f := by
  induction st with
  | nil => rfl
  | cons c rest ih =>
    show List.find? (fun x => x.sockId = sid)
        ((if c.sockId = sid then f c else c) :: updateConn rest sid f) =
      Option.map f (List.find? (fun x => x.sockId = sid) (c :: rest))
    by_cases h : c.sockId = sid
    · rw [if_pos h]
      have h1 : decide ((f c).sockId = sid) = true := by simp [hf, h]
      have h2 : decide (c.sockId = sid) = true := by simp [h]
      rw [List.find?_cons, List.find?_cons, h1, h2]
      rfl
    · rw [if_neg h]
      have h2 : decide (c.sockId = sid) = false := by simp [h]
      rw [List.find?_cons, List.find?_cons, h2]
      exact ih

theorem mem_getActiveUsers (st : List Conn) (studyId : String) (d : Conn)
    (hd : d ∈ st) (hr : studyRoom studyId ∈ d.rooms) :
    d.user ∈ getActiveUsersInStudy st studyId := by
  rw [getActiveUsersInStudy]
  exact List.mem_map_of_mem _ (List.mem_filter.mpr ⟨hd, by simpa using hr⟩)

theorem findConn_sockId (st : List Conn) (sid : Nat) (c : Conn)
    (h : findConn st sid = some c) : c.sockId = sid := by
  have := List.find?_some (p := fun c : Conn => decide (c.sockId = sid)) h
  simpa using this

theorem findConn_mem (st : List Conn) (sid : Nat) (c : Conn)
    (h : findConn st sid = some c) : c ∈ st :=
  List.mem_of_find?_eq_some h

/-- C10: on every successful `join-study`, the `active-users` snapshot sent
back to the joining connection is computed **after** `socket.join`, so it
contains the joining connection's own identity as well as every previously
joined member of the room. -/
theorem joinStudy_snapshot_includes_self (access : String → String → Bool)
    (st : List Conn) (sid : Nat) (c : Conn) (studyId : String)
    (hfind : findConn st sid = some c) (hacc : access c.user.id studyId = true) :
    (joinStudy access st sid studyId).2 =
      [Emission.userJoined (studyRoom studyId) c.user,
       Emission.activeUsers sid
         (getActiveUsersInStudy (joinStudy access st sid studyId).1 studyId)] ∧
    c.user ∈ getActiveUsersInStudy (joinStudy access st sid studyId).1 studyId ∧
    (∀ d ∈ st, studyRoom studyId ∈ d.rooms →
      d.user ∈ getActiveUsersInStudy (joinStudy access st sid studyId).1 studyId) := by
  have hev : joinStudy access st sid studyId =
      (updateConn st sid
        (fun c0 => { joinRoom c0 (studyRoom studyId) with currentStudy := some studyId }),
       [Emission.userJoined (studyRoom studyId) c.user,
        Emission.activeUsers sid
          (getActiveUsersInStudy
            (updateConn st sid
              (fun c0 =>
                { joinRoom c0 (studyRoom studyId) with currentStudy := some studyId }))
            studyId)]) := by
    simp [joinStudy, hfind, hacc]
  rw [hev]
  refine ⟨rfl, ?_, ?_⟩
  · have hcs := findConn_sockId st sid c hfind
    have himg := mem_updateConn_of_mem st sid
      (fun c0 => { joinRoom c0 (studyRoom studyId) with currentStudy := some studyId })
      c (findConn_mem st sid c hfind) hcs
    exact mem_getActiveUsers _ studyId
      ((fun c0 => { joinRoom c0 (studyRoom studyId) with currentStudy := some studyId }) c)
      himg (mem_joinRoom_self c (studyRoom studyId))
  · intro d hd hr
    by_cases hds : d.sockId = sid
    · have himg := mem_updateConn_of_mem st sid
        (fun c0 => { joinRoom c0 (studyRoom studyId) with currentStudy := some studyId })
        d hd hds
      exact mem_getActiveUsers _ studyId
        ((fun c0 => { joinRoom c0 (studyRoom studyId) with currentStudy := some studyId }) d)
        himg (mem_joinRoom_of_mem d (studyRoom studyId) _ hr)
    · have himg := mem_updateConn_of_ne st sid
        (fun c0 => { joinRoom c0 (studyRoom studyId) with currentStudy := some studyId })
        d hd hds
      exact mem_getActiveUsers _ studyId _ himg hr

/-- The identity used by the concrete gateway scenarios. -/
def uW : SUser := ⟨"uA", "alice", "Alice", "Lidd"⟩

/-- A second identity, already present in the room in the C10 witness. -/
def uV : SUser := ⟨"uB", "bob", "Bob", "Marl"⟩

/-- C10 (witness): socket 1 joins study `S` while socket 0 is already in
the room; the snapshot returned to socket 1 contains both identities. -/
theorem joinStudy_snapshot_includes_self_witness :
    findConn [⟨0, uV, some "S", ["study:S"]⟩, ⟨1, uW, none, []⟩] 1 =
      some ⟨1, uW, none, []⟩ ∧
    uW ∈ getActiveUsersInStudy
      (joinStudy (fun _ _ => true)
        [⟨0, uV, some "S", ["study:S"]⟩, ⟨1, uW, none, []⟩] 1 "S").1 "S" ∧
    uV ∈ getActiveUsersInStudy
      (joinStudy (fun _ _ => true)
        [⟨0, uV, some "S", ["study:S"]⟩, ⟨1, uW, none, []⟩] 1 "S").1 "S" :=
  ⟨by decide,
   (joinStudy_snapshot_includes_self (fun _ _ => true)
      [⟨0, uV, some "S", ["study:S"]⟩, ⟨1, uW, none, []⟩] 1
      ⟨1, uW, none, []⟩ "S" (by decide) rfl).2.1,
   (joinStudy_snapshot_includes_self (fun _ _ => true)
      [⟨0, uV, some "S", ["study:S"]⟩, ⟨1, uW, none, []⟩] 1
      ⟨1, uW, none, []⟩ "S" (by decide) rfl).2.2
     ⟨0, uV, some "S", ["study:S"]⟩ (by decide) (by decide)⟩

/-- C2 (amended): when a connection already bound to room A joins room B
(authorized), **no** `user-left` broadcast is emitted at all: the handler
emits exactly one `user-joined` for B followed by the `active-users`
snapshot, overwrites `currentStudy` to B, and adds B to the socket's rooms
while the socket **remains a member of A's socket.io room** — the
leave-then-join of the claim does not happen. -/
theorem joinStudy_no_implicit_leave (access : String → String → Bool)
    (st : List Conn) (sid : Nat) (c : Conn) (prevStudy newStudy : String)
    (hfind : findConn st sid = some c)
    (_hcur : c.currentStudy = some prevStudy)
    (hacc : access c.user.id newStudy = true)
    (hprev : studyRoom prevStudy ∈ c.rooms) :
    (∀ room uid uname,
      Emission.userLeft room uid uname ∉ (joinStudy access st sid newStudy).2) ∧
    (joinStudy access st sid newStudy).2 =
      [Emission.userJoined (studyRoom newStudy) c.user,
       Emission.activeUsers sid
         (getActiveUsersInStudy (joinStudy access st sid newStudy).1 newStudy)] ∧
    (∃ c', findConn (joinStudy access st sid newStudy).1 sid = some c' ∧
      c'.currentStudy = some newStudy ∧
      studyRoom newStudy ∈ c'.rooms ∧
      studyRoom prevStudy ∈ c'.rooms) := by
  have hev : joinStudy access st sid newStudy =
      (updateConn st sid
        (fun c0 => { joinRoom c0 (studyRoom newStudy) with currentStudy := some newStudy }),
       [Emission.userJoined (studyRoom newStudy) c.user,
        Emission.activeUsers sid
          (getActiveUsersInStudy
            (updateConn st sid
              (fun c0 =>
                { joinRoom c0 (studyRoom newStudy) with currentStudy := some newStudy }))
            newStudy)]) := by
    simp [joinStudy, hfind, hacc]
  rw [hev]
  refine ⟨?_, rfl, ?_⟩
  · intro room uid uname hmem
    simp only [List.mem_cons, List.mem_singleton] at hmem
    rcases hmem with h | h | h
    · cases h
    · cases h
    · cases h
  · refine ⟨{ joinRoom c (studyRoom newStudy) with currentStudy := some newStudy }, ?_,
      rfl, mem_joinRoom_self c (studyRoom newStudy),
      mem_joinRoom_of_mem c (studyRoom newStudy) _ hprev⟩
    have hfc := findConn_updateConn st sid
      (fun c0 => { joinRoom c0 (studyRoom newStudy) with currentStudy := some newStudy })
      (fun c0 => rfl)
    rw [hfind] at hfc
    exact hfc

/-- C2 (counterexample): a connection bound to room A (`currentStudy = A`,
member of `study:A`) joins room B: the emitted events are exactly one
`user-joined` for B plus the snapshot — **zero** `user-left` broadcasts for
A — and afterwards the socket is a member of both `study:A` and `study:B`.
This refutes "exactly one user-left broadcast for A is emitted ... the
connection is never a member of both rooms simultaneously". -/
theorem join_second_room_counterexample :
    (joinStudy (fun _ _ => true) [⟨0, uW, some "A", ["study:A"]⟩] 0 "B").2 =
      [Emission.userJoined "study:B" uW,
       Emission.activeUsers 0 [uW]] ∧
    (Emission.userLeft "study:A" uW.id uW.username ∉
      (joinStudy (fun _ _ => true) [⟨0, uW, some "A", ["study:A"]⟩] 0 "B").2) ∧
    findConn (joinStudy (fun _ _ => true) [⟨0, uW, some "A", ["study:A"]⟩] 0 "B").1 0 =
      some ⟨0, uW, some "B", ["study:A", "study:B"]⟩ := by
  decide

/-- C2 (witness): the amended no-implicit-leave theorem applied to the
concrete one-socket state bound to room A joining room B. -/
theorem joinStudy_no_implicit_leave_witness :
    Emission.userLeft (studyRoom "A") uW.id uW.username ∉
      (joinStudy (fun _ _ => true) [⟨0, uW, some "A", ["study:A"]⟩] 0 "B").2 :=
  (joinStudy_no_implicit_leave (fun _ _ => true) [⟨0, uW, some "A", ["study:A"]⟩] 0
    ⟨0, uW, some "A", ["study:A"]⟩ "A" "B" (by decide) rfl rfl (by decide)).1
    (studyRoom "A") uW.id uW.username

/-- C3 (amended): the `add-comment` handler performs **no** membership
validation: for every connected socket, every submission is persisted
(appended to the comment store) unconditionally, and broadcast to
`data.studyId || socket.currentStudy` when that target exists. Membership
is checked only by the `join-study` handler. -/
theorem addComment_no_membership_validation (st : List Conn) (store : List DbComment)
    (sid : Nat) (c : Conn) (dsid dwid dpid : Option String) (content newId : String)
    (hfind : findConn st sid = some c) :
    (addCommentHandler st store sid dsid dwid dpid content newId).1 =
      store ++ [⟨newId, content, c.user.id, dsid, dwid, dpid⟩] ∧
    (∀ t, dsid = some t →
      (addCommentHandler st store sid dsid dwid dpid content newId).2 =
        [Emission.commentAdded (studyRoom t) newId c.user.id]) := by
  constructor
  · simp only [addCommentHandler, hfind]
    cases dsid with
    | some s => rfl
    | none =>
      cases hcs : c.currentStudy with
      | some t => simp [hcs]
      | none => simp [hcs]
  · intro t ht
    subst ht
    simp only [addCommentHandler, hfind]

/-- C3 (counterexample): under a membership relation in which `uA` belongs
to no group at all (`join-study` for `S` is denied with an error event),
the very same principal's `add-comment` targeting `S` is persisted and
broadcast to `study:S` — the comment is created, no rejection occurs. -/
theorem addComment_nonmember_counterexample :
    (joinStudy (fun _ _ => false) [⟨0, uW, none, []⟩] 0 "S").2 =
      [Emission.errorTo 0 "Access denied to study"] ∧
    addCommentHandler [⟨0, uW, none, []⟩] [] 0 (some "S") none none "hello" "c1" =
      ([⟨"c1", "hello", uW.id, some "S", none, none⟩],
       [Emission.commentAdded (studyRoom "S") "c1" uW.id]) := by
  decide

/-- C3 (witness): the amended theorem applied to the concrete non-member
socket: its comment lands in the store. -/
theorem addComment_no_membership_validation_witness :
    (addCommentHandler [⟨0, uW, none, []⟩] [] 0 (some "S") none none "hello" "c1").1 =
      [] ++ [⟨"c1", "hello", uW.id, some "S", none, none⟩] :=
  (addComment_no_membership_validation [⟨0, uW, none, []⟩] [] 0 ⟨0, uW, none, []⟩
    (some "S") none none "hello" "c1" (by decide)).1

end BibleStudy
